import Mathlib

/-!
Shallow embedding of the `spell` PNG chunk manipulator.

Byte buffers are `List Nat` whose elements are intended to lie below 256
(the Rust sources operate on `u8` slices and vectors); 32-bit machine
integers are `Nat` values below `2 ^ 32`, with `% 2 ^ 32` made explicit
where the Rust code can overflow (`data.len() as u32`).

Embedded sources:
- `src/chunk_type.rs`: `ChunkType` and its constructors / bit predicates.
- `src/chunk.rs`: `Chunk`, CRC-32 (ISO-HDLC) computation, the byte-level
  encoder `as_bytes` and the decoder `TryFrom<&[u8]>`.
- `src/png.rs` is referenced by `main.rs` but absent from the sources; the
  `Png` definitions below are modelled from the specification text.
-/

namespace Spell

/-- Big-endian interpretation of a byte list, as in `u32::from_be_bytes`
applied to a 4-byte buffer. -/
def u32beL (l : List Nat) : Nat := l.foldl (fun a b => a * 256 + b) 0

/-- Big-endian 4-byte encoding of a `u32` value, as in `u32::to_be_bytes`. -/
def beBytes (n : Nat) : List Nat :=
  [n / 2 ^ 24 % 256, n / 2 ^ 16 % 256, n / 2 ^ 8 % 256, n % 256]

/-- `BufReader::read_exact` into a buffer of `n` bytes: succeeds returning the
bytes read and the remaining input iff at least `n` bytes are available. -/
def readExact (n : Nat) (l : List Nat) : Option (List Nat × List Nat) :=
  if n ≤ l.length then some (l.take n, l.drop n) else none

/-- The reflected CRC-32 (ISO-HDLC) polynomial `0xEDB88320`, the parameter set
`crc::CRC_32_ISO_HDLC` uses (reflected input/output, init and xorout
`0xFFFFFFFF`). -/
def crcPoly : Nat := 0xEDB88320

/-- One shift-xor round of the reflected CRC-32 algorithm. -/
def crcRound (x : Nat) : Nat := if x % 2 = 1 then (x / 2) ^^^ crcPoly else x / 2

/-- Process one input byte: xor it into the state and run eight rounds. -/
def crcStep (c b : Nat) : Nat := crcRound^[8] (c ^^^ b)

/-- Run the CRC state machine over a byte list. -/
def crcLoop (c : Nat) (l : List Nat) : Nat := l.foldl crcStep c

/-- `Crc::<u32>::new(&crc::CRC_32_ISO_HDLC).checksum(l)`. -/
def crc32 (l : List Nat) : Nat := crcLoop 0xFFFFFFFF l ^^^ 0xFFFFFFFF

/-- `ChunkType` of `src/chunk_type.rs`: a `[u8; 4]` of raw tag bytes. -/
structure ChunkType where
  b0 : Nat
  b1 : Nat
  b2 : Nat
  b3 : Nat
deriving DecidableEq, Repr

namespace ChunkType

/-- `ChunkType::new(bytes)`. -/
def new (b0 b1 b2 b3 : Nat) : ChunkType := ⟨b0, b1, b2, b3⟩

/-- `ChunkType::bytes(&self)`: the raw 4-byte array, as a list. -/
def bytes (ct : ChunkType) : List Nat := [ct.b0, ct.b1, ct.b2, ct.b3]

/-- Build a `ChunkType` from the first four entries of a byte list (the
decoder only applies this to lists of length exactly 4). -/
def ofList (l : List Nat) : ChunkType :=
  ⟨l.getD 0 0, l.getD 1 0, l.getD 2 0, l.getD 3 0⟩

/-- One byte of the check `(65..91).contains(b) || (97..123).contains(b)`
from `ChunkType::is_only_possible_bytes`. -/
def possibleByte (b : Nat) : Bool :=
  decide (65 ≤ b ∧ b < 91) || decide (97 ≤ b ∧ b < 123)

/-- `ChunkType::is_only_possible_bytes`. -/
def is_only_possible_bytes (ct : ChunkType) : Bool :=
  ct.bytes.all possibleByte

/-- `u8::is_ascii_uppercase`. -/
def asciiUpper (b : Nat) : Bool := decide (65 ≤ b ∧ b ≤ 90)

/-- `u8::is_ascii_lowercase`. -/
def asciiLower (b : Nat) : Bool := decide (97 ≤ b ∧ b ≤ 122)

/-- `ChunkType::is_critical`: byte 0 is ASCII uppercase. -/
def is_critical (ct : ChunkType) : Bool := asciiUpper ct.b0

/-- `ChunkType::is_public`: byte 1 is ASCII uppercase. -/
def is_public (ct : ChunkType) : Bool := asciiUpper ct.b1

/-- `ChunkType::is_reserved_bit_valid`: byte 2 is ASCII uppercase. -/
def is_reserved_bit_valid (ct : ChunkType) : Bool := asciiUpper ct.b2

/-- `ChunkType::is_safe_to_copy`: byte 3 is ASCII lowercase. -/
def is_safe_to_copy (ct : ChunkType) : Bool := asciiLower ct.b3

/-- `TryFrom<[u8; 4]> for ChunkType`: `Ok(ChunkType::new(bytes))`,
unconditionally. The Rust error type is `String`. -/
def tryFromBytes (b0 b1 b2 b3 : Nat) : Except String ChunkType :=
  .ok (new b0 b1 b2 b3)

/-- `FromStr for ChunkType` on the UTF-8 bytes of the input string:
`s.as_bytes().try_into()?` fails unless the byte length is exactly 4, then
`is_only_possible_bytes` must hold or the construction bails. -/
def fromStr (s : List Nat) : Option ChunkType :=
  match s with
  | [a, b, c, d] =>
    let temp : ChunkType := ⟨a, b, c, d⟩
    if temp.is_only_possible_bytes then some temp else none
  | _ => none

/-- `Display for ChunkType`: `from_utf8(&self.bytes)` renders the raw bytes
back as a string; on the byte level this is the identity on `bytes`. -/
def render (ct : ChunkType) : List Nat := ct.bytes

end ChunkType

/-- `Chunk` of `src/chunk.rs`: length, type, payload and CRC fields. -/
structure Chunk where
  length : Nat
  ctype : ChunkType
  data : List Nat
  crc : Nat
deriving DecidableEq, Repr

/-- Decode failures of `TryFrom<&[u8]> for Chunk`: `read_exact` errors
(truncated input) and the `bail!("Incorrect CRC")` path. -/
inductive DecodeErr where
  | truncated
  | crcMismatch
deriving DecidableEq, Repr

instance {ε α : Type} [DecidableEq ε] [DecidableEq α] : DecidableEq (Except ε α) :=
  fun a b =>
    match a, b with
    | .ok x, .ok y =>
      if h : x = y then .isTrue (congrArg Except.ok h)
      else .isFalse (fun hh => h (by injection hh))
    | .error x, .error y =>
      if h : x = y then .isTrue (congrArg Except.error h)
      else .isFalse (fun hh => h (by injection hh))
    | .ok _, .error _ => .isFalse (fun hh => Except.noConfusion hh)
    | .error _, .ok _ => .isFalse (fun hh => Except.noConfusion hh)

namespace Chunk

/-- `Chunk::new(chunk_type, data)`: length is `data.len() as u32` (hence the
explicit `% 2 ^ 32`), CRC is computed over type bytes ++ payload. -/
def new (chunkType : ChunkType) (data : List Nat) : Chunk :=
  { length := data.length % 2 ^ 32
    ctype := chunkType
    data := data
    crc := crc32 (chunkType.bytes ++ data) }

/-- `Chunk::as_bytes`: big-endian length, type bytes, payload, big-endian
CRC, concatenated. -/
def as_bytes (c : Chunk) : List Nat :=
  beBytes c.length ++ c.ctype.bytes ++ c.data ++ beBytes c.crc

/-- `TryFrom<&[u8]> for Chunk`: sequentially `read_exact` the 4-byte
big-endian length, the 4 type bytes, `length` payload bytes and the 4-byte
big-endian CRC, then recompute the CRC over type ++ payload and fail if it
differs from the stored one. -/
def tryFrom (value : List Nat) : Except DecodeErr Chunk :=
  match readExact 4 value with
  | none => .error .truncated
  | some (lengthBytes, r1) =>
    let length := u32beL lengthBytes
    match readExact 4 r1 with
    | none => .error .truncated
    | some (typeBytes, r2) =>
      let chunkType := ChunkType.ofList typeBytes
      match readExact length r2 with
      | none => .error .truncated
      | some (data, r3) =>
        match readExact 4 r3 with
        | none => .error .truncated
        | some (crcBytes, _) =>
          let crc := u32beL crcBytes
          let calcedCrc := crc32 (chunkType.bytes ++ data)
          if crc ≠ calcedCrc then .error .crcMismatch
          else .ok { length := length, ctype := chunkType, data := data, crc := crc }

end Chunk

/-- The canonical 8-byte PNG signature `89 50 4E 47 0D 0A 1A 0A`. -/
def pngSignature : List Nat := [137, 80, 78, 71, 13, 10, 26, 10]

/-- Errors of PNG container parsing: signature mismatch, or a propagated
per-chunk decode failure. -/
inductive PngError where
  | badSignature
  | chunk (e : DecodeErr)
deriving DecidableEq, Repr

/-- Modelled from the spec: `src/png.rs` is not among the sources, so the
container's chunk-sequence parser follows §4.3 — repeatedly decode one chunk
from the remaining bytes, advance the cursor by `12 + length` bytes per
chunk until the buffer is fully consumed, propagating any per-chunk decode
failure immediately. -/
def parseChunks (bytes : List Nat) : Except DecodeErr (List Chunk) :=
  if h : bytes = [] then .ok []
  else
    match Chunk.tryFrom bytes with
    | .error e => .error e
    | .ok c =>
      match parseChunks (bytes.drop (12 + c.length)) with
      | .error e => .error e
      | .ok cs => .ok (c :: cs)
termination_by bytes.length
decreasing_by
  simp only [List.length_drop]
  have hpos : 0 < bytes.length := List.length_pos.mpr h
  omega

/-- Modelled from the spec: the `Png` container of the missing `src/png.rs`
owns the ordered sequence of chunks (the signature is the fixed canonical
one). -/
structure Png where
  chunks : List Chunk
deriving DecidableEq, Repr

namespace Png

/-- Modelled from the spec: `Png::try_from(bytes)` verifies that the first 8
bytes equal the canonical PNG signature and then parses the remaining bytes
as consecutive chunk records. -/
def tryFrom (bytes : List Nat) : Except PngError Png :=
  if bytes.take 8 = pngSignature then
    match parseChunks (bytes.drop 8) with
    | .error e => .error (.chunk e)
    | .ok cs => .ok ⟨cs⟩
  else .error .badSignature

/-- Modelled from the spec: `Png::as_bytes` emits the 8-byte signature
followed by each chunk's encoding in sequence order. -/
def as_bytes (p : Png) : List Nat :=
  pngSignature ++ (p.chunks.map Chunk.as_bytes).flatten

end Png

/-! ### Facts about the byte-level helpers -/

theorem readExact_of_le {n : Nat} {l : List Nat} (h : n ≤ l.length) :
    readExact n l = some (l.take n, l.drop n) := by
  unfold readExact
  exact if_pos h

theorem readExact_of_gt {n : Nat} {l : List Nat} (h : l.length < n) :
    readExact n l = none := by
  unfold readExact
  exact if_neg (by omega)

theorem u32beL_four (a b c d : Nat) :
    u32beL [a, b, c, d] = ((a * 256 + b) * 256 + c) * 256 + d := by
  simp [u32beL, List.foldl]

theorem beBytes_length (n : Nat) : (beBytes n).length = 4 := rfl

theorem u32beL_beBytes {n : Nat} (h : n < 2 ^ 32) : u32beL (beBytes n) = n := by
  have e : (2:Nat) ^ 32 = 4294967296 := by norm_num
  rw [e] at h
  simp only [beBytes, u32beL_four]
  norm_num
  omega

theorem beBytes_u32beL {a b c d : Nat}
    (ha : a < 256) (hb : b < 256) (hc : c < 256) (hd : d < 256) :
    beBytes (u32beL [a, b, c, d]) = [a, b, c, d] := by
  simp only [beBytes, u32beL_four]
  norm_num
  refine ⟨by omega, by omega, by omega, by omega⟩

theorem u32beL_lt {a b c d : Nat}
    (ha : a < 256) (hb : b < 256) (hc : c < 256) (hd : d < 256) :
    u32beL [a, b, c, d] < 2 ^ 32 := by
  rw [u32beL_four]
  have e : (2:Nat) ^ 32 = 4294967296 := by norm_num
  omega

theorem beBytes_mem_lt {n x : Nat} (h : x ∈ beBytes n) : x < 256 := by
  simp only [beBytes, List.mem_cons, List.not_mem_nil, or_false] at h
  rcases h with h | h | h | h <;> (subst h; exact Nat.mod_lt _ (by norm_num))

theorem exists_four {l : List Nat} (h : l.length = 4) :
    ∃ a b c d, l = [a, b, c, d] := by
  rcases l with _ | ⟨a, _ | ⟨b, _ | ⟨c, _ | ⟨d, _ | ⟨e, t⟩⟩⟩⟩⟩ <;>
    simp only [List.length_nil, List.length_cons] at h <;> try omega
  exact ⟨a, b, c, d, rfl⟩

theorem ChunkType.bytes_ofList {l : List Nat} (h : l.length = 4) :
    (ChunkType.ofList l).bytes = l := by
  obtain ⟨a, b, c, d, rfl⟩ := exists_four h
  rfl

/-! ### CRC-32 state machine: bounds and injectivity

`crcRound` is a bijection of the 32-bit state space, so the CRC state after
processing a common suffix is injective in the state before it, and two
inputs differing in a single byte always get different checksums. -/

/-- Explicit inverse of one CRC round on 32-bit states. -/
def crcRoundInv (z : Nat) : Nat :=
  if z.testBit 31 then 2 * (z ^^^ crcPoly) + 1 else 2 * z

theorem crcRound_lt {x : Nat} (h : x < 2 ^ 32) : crcRound x < 2 ^ 32 := by
  unfold crcRound
  split
  · exact Nat.xor_lt_two_pow (by omega) (by norm_num [crcPoly])
  · omega

theorem crcRoundInv_crcRound {x : Nat} (h : x < 2 ^ 32) :
    crcRoundInv (crcRound x) = x := by
  have hhalf : x / 2 < 2 ^ 31 := by omega
  have hbit : (x / 2).testBit 31 = false := Nat.testBit_eq_false_of_lt hhalf
  have hpolybit : crcPoly.testBit 31 = true := by decide
  unfold crcRound crcRoundInv
  by_cases hp : x % 2 = 1
  · rw [if_pos hp]
    rw [if_pos (by rw [Nat.testBit_xor, hbit, hpolybit]; rfl)]
    rw [Nat.xor_cancel_right]
    omega
  · rw [if_neg hp]
    rw [if_neg (by rw [hbit]; exact Bool.false_ne_true)]
    omega

theorem crcRound_inj {x y : Nat} (hx : x < 2 ^ 32) (hy : y < 2 ^ 32)
    (h : crcRound x = crcRound y) : x = y := by
  have := congrArg crcRoundInv h
  rwa [crcRoundInv_crcRound hx, crcRoundInv_crcRound hy] at this

theorem crcRound_iterate_lt (k : Nat) {x : Nat} (h : x < 2 ^ 32) :
    crcRound^[k] x < 2 ^ 32 := by
  induction k generalizing x with
  | zero => simpa using h
  | succ n ih =>
    rw [Function.iterate_succ_apply]
    exact ih (crcRound_lt h)

theorem crcRound_iterate_inj (k : Nat) {x y : Nat} (hx : x < 2 ^ 32)
    (hy : y < 2 ^ 32) (h : crcRound^[k] x = crcRound^[k] y) : x = y := by
  induction k generalizing x y with
  | zero => simpa using h
  | succ n ih =>
    rw [Function.iterate_succ_apply, Function.iterate_succ_apply] at h
    exact crcRound_inj hx hy (ih (crcRound_lt hx) (crcRound_lt hy) h)

theorem crcStep_lt {c b : Nat} (hc : c < 2 ^ 32) (hb : b < 2 ^ 32) :
    crcStep c b < 2 ^ 32 :=
  crcRound_iterate_lt 8 (Nat.xor_lt_two_pow hc hb)

theorem crcStep_inj {c c' b : Nat} (hc : c < 2 ^ 32) (hc' : c' < 2 ^ 32)
    (hb : b < 2 ^ 32) (h : crcStep c b = crcStep c' b) : c = c' := by
  have := crcRound_iterate_inj 8 (Nat.xor_lt_two_pow hc hb)
    (Nat.xor_lt_two_pow hc' hb) h
  exact Nat.xor_left_inj.mp this

theorem crcStep_ne {c b b' : Nat} (hc : c < 2 ^ 32) (hb : b < 2 ^ 32)
    (hb' : b' < 2 ^ 32) (hne : b ≠ b') : crcStep c b ≠ crcStep c b' := by
  intro h
  have := crcRound_iterate_inj 8 (Nat.xor_lt_two_pow hc hb)
    (Nat.xor_lt_two_pow hc hb') h
  exact hne (Nat.xor_right_inj.mp this)

theorem crcLoop_lt {l : List Nat} {c : Nat} (hc : c < 2 ^ 32)
    (hl : ∀ b ∈ l, b < 2 ^ 32) : crcLoop c l < 2 ^ 32 := by
  induction l generalizing c with
  | nil => simpa [crcLoop] using hc
  | cons x xs ih =>
    show crcLoop (crcStep c x) xs < 2 ^ 32
    exact ih (crcStep_lt hc (hl x (by simp))) (fun b hb => hl b (by simp [hb]))

theorem crcLoop_inj {l : List Nat} {c c' : Nat} (hl : ∀ b ∈ l, b < 2 ^ 32)
    (hc : c < 2 ^ 32) (hc' : c' < 2 ^ 32)
    (h : crcLoop c l = crcLoop c' l) : c = c' := by
  induction l generalizing c c' with
  | nil => simpa [crcLoop] using h
  | cons x xs ih =>
    have hx : x < 2 ^ 32 := hl x (by simp)
    have hxs : ∀ b ∈ xs, b < 2 ^ 32 := fun b hb => hl b (by simp [hb])
    have h2 : crcLoop (crcStep c x) xs = crcLoop (crcStep c' x) xs := h
    exact crcStep_inj hc hc' hx
      (ih hxs (crcStep_lt hc hx) (crcStep_lt hc' hx) h2)

theorem crc32_lt {l : List Nat} (hl : ∀ b ∈ l, b < 256) : crc32 l < 2 ^ 32 := by
  unfold crc32
  refine Nat.xor_lt_two_pow ?_ (by norm_num)
  exact crcLoop_lt (by norm_num) (fun b hb => lt_trans (hl b hb) (by norm_num))

theorem crc32_single_diff {pre suf : List Nat} {b b' : Nat}
    (hpre : ∀ x ∈ pre, x < 256) (hsuf : ∀ x ∈ suf, x < 256)
    (hb : b < 256) (hb' : b' < 256) (hne : b ≠ b') :
    crc32 (pre ++ b :: suf) ≠ crc32 (pre ++ b' :: suf) := by
  intro h
  have e32 : (256:Nat) < 2 ^ 32 := by norm_num
  unfold crc32 crcLoop at h
  rw [List.foldl_append, List.foldl_append, List.foldl_cons, List.foldl_cons] at h
  have h2 := Nat.xor_left_inj.mp h
  have hs : List.foldl crcStep 0xFFFFFFFF pre < 2 ^ 32 :=
    crcLoop_lt (by norm_num) (fun x hx => lt_trans (hpre x hx) e32)
  have hsuf32 : ∀ x ∈ suf, x < 2 ^ 32 := fun x hx => lt_trans (hsuf x hx) e32
  have hstep : crcStep (List.foldl crcStep 0xFFFFFFFF pre) b
      = crcStep (List.foldl crcStep 0xFFFFFFFF pre) b' :=
    crcLoop_inj hsuf32 (crcStep_lt hs (lt_trans hb e32))
      (crcStep_lt hs (lt_trans hb' e32)) h2
  exact crcStep_ne hs (lt_trans hb e32) (lt_trans hb' e32) hne hstep

/-! ### Characterization of the chunk decoder -/

/-- Complete, branch-free description of `Chunk::try_from`: with `L` the
big-endian value of the first four bytes, the decode succeeds iff at least
`12 + L` bytes are available and the stored CRC equals the one recomputed
over type ++ payload, and the fields are the corresponding slices. -/
theorem tryFrom_characterization (bytes : List Nat) :
    Chunk.tryFrom bytes =
      if 12 + u32beL (bytes.take 4) ≤ bytes.length then
        if u32beL ((bytes.drop (8 + u32beL (bytes.take 4))).take 4)
            = crc32 ((ChunkType.ofList ((bytes.drop 4).take 4)).bytes
                ++ (bytes.drop 8).take (u32beL (bytes.take 4))) then
          .ok { length := u32beL (bytes.take 4)
                ctype := ChunkType.ofList ((bytes.drop 4).take 4)
                data := (bytes.drop 8).take (u32beL (bytes.take 4))
                crc := u32beL ((bytes.drop (8 + u32beL (bytes.take 4))).take 4) }
        else .error .crcMismatch
      else .error .truncated := by
  by_cases hmain : 12 + u32beL (bytes.take 4) ≤ bytes.length
  · rw [if_pos hmain]
    have h1 : (4:Nat) ≤ bytes.length := by omega
    have h2 : (4:Nat) ≤ (bytes.drop 4).length := by rw [List.length_drop]; omega
    have h3 : u32beL (bytes.take 4) ≤ (bytes.drop 8).length := by
      rw [List.length_drop]; omega
    have h4 : (4:Nat) ≤ (bytes.drop (8 + u32beL (bytes.take 4))).length := by
      rw [List.length_drop]; omega
    unfold Chunk.tryFrom
    simp only [readExact_of_le h1, readExact_of_le h2, List.drop_drop,
      Nat.reduceAdd, readExact_of_le h3, readExact_of_le h4]
    by_cases hc : u32beL ((bytes.drop (8 + u32beL (bytes.take 4))).take 4)
        = crc32 ((ChunkType.ofList ((bytes.drop 4).take 4)).bytes
            ++ (bytes.drop 8).take (u32beL (bytes.take 4)))
    · rw [if_pos hc]
      simp only [hc, ne_eq, not_true_eq_false, if_false]
    · rw [if_neg hc]
      simp only [ne_eq, hc, not_false_eq_true, if_true]
  · rw [if_neg hmain]
    push_neg at hmain
    unfold Chunk.tryFrom
    by_cases h1 : 4 ≤ bytes.length
    · simp only [readExact_of_le h1]
      by_cases h2 : 4 ≤ (bytes.drop 4).length
      · simp only [readExact_of_le h2, List.drop_drop, Nat.reduceAdd]
        by_cases h3 : u32beL (bytes.take 4) ≤ (bytes.drop 8).length
        · simp only [readExact_of_le h3, List.drop_drop]
          have h4 : (bytes.drop (8 + u32beL (bytes.take 4))).length < 4 := by
            rw [List.length_drop]
            rw [List.length_drop] at h3
            omega
          simp only [readExact_of_gt h4]
        · push_neg at h3
          simp only [readExact_of_gt h3]
      · push_neg at h2
        simp only [readExact_of_gt h2]
    · push_neg at h1
      simp only [readExact_of_gt h1]

theorem ChunkType.ofList_bytes (ct : ChunkType) :
    ChunkType.ofList ct.bytes = ct := rfl

theorem ChunkType.bytes_length (ct : ChunkType) : ct.bytes.length = 4 := rfl

/-- Decoding ignores anything after the first `12 + length` bytes: a decode
that succeeds on `bytes` succeeds identically on `bytes ++ extra`. -/
theorem tryFrom_ok_append {bytes extra : List Nat} {c : Chunk}
    (h : Chunk.tryFrom bytes = .ok c) :
    Chunk.tryFrom (bytes ++ extra) = .ok c := by
  rw [tryFrom_characterization] at h
  by_cases hmain : 12 + u32beL (bytes.take 4) ≤ bytes.length
  case neg =>
    rw [if_neg hmain] at h
    exact absurd h (by simp)
  rw [if_pos hmain] at h
  have hL4 : (4:Nat) ≤ bytes.length := by omega
  have hL8 : (8:Nat) ≤ bytes.length := by omega
  have hL8L : 8 + u32beL (bytes.take 4) ≤ bytes.length := by omega
  have e0 : (bytes ++ extra).take 4 = bytes.take 4 :=
    List.take_append_of_le_length hL4
  have e4 : ((bytes ++ extra).drop 4).take 4 = (bytes.drop 4).take 4 := by
    rw [List.drop_append_of_le_length hL4]
    exact List.take_append_of_le_length (by rw [List.length_drop]; omega)
  have e8 : ((bytes ++ extra).drop 8).take (u32beL (bytes.take 4))
      = (bytes.drop 8).take (u32beL (bytes.take 4)) := by
    rw [List.drop_append_of_le_length hL8]
    exact List.take_append_of_le_length (by rw [List.length_drop]; omega)
  have e12 : ((bytes ++ extra).drop (8 + u32beL (bytes.take 4))).take 4
      = (bytes.drop (8 + u32beL (bytes.take 4))).take 4 := by
    rw [List.drop_append_of_le_length hL8L]
    exact List.take_append_of_le_length (by rw [List.length_drop]; omega)
  rw [tryFrom_characterization, e0, e4, e8, e12]
  rw [if_pos (by rw [List.length_append]; omega)]
  by_cases hc : u32beL ((bytes.drop (8 + u32beL (bytes.take 4))).take 4)
      = crc32 ((ChunkType.ofList ((bytes.drop 4).take 4)).bytes
          ++ (bytes.drop 8).take (u32beL (bytes.take 4)))
  · rw [if_pos hc] at h ⊢
    exact h
  · rw [if_neg hc] at h
    exact absurd h (by simp)

/-- The encoder/decoder round trip for a freshly constructed chunk whose
payload fits in a `u32` length field. -/
theorem tryFrom_new {ct : ChunkType} {data : List Nat}
    (hct : ∀ b ∈ ct.bytes, b < 256) (hdata : ∀ b ∈ data, b < 256)
    (hlen : data.length < 2 ^ 32) :
    Chunk.tryFrom (Chunk.new ct data).as_bytes = .ok (Chunk.new ct data) := by
  have hmod : data.length % 2 ^ 32 = data.length := Nat.mod_eq_of_lt hlen
  have hcrclt : crc32 (ct.bytes ++ data) < 2 ^ 32 := crc32_lt (by
    intro b hb
    rcases List.mem_append.mp hb with hb | hb
    · exact hct b hb
    · exact hdata b hb)
  have habytes : (Chunk.new ct data).as_bytes
      = beBytes data.length ++ (ct.bytes ++ (data ++ beBytes (crc32 (ct.bytes ++ data)))) := by
    simp only [Chunk.new, Chunk.as_bytes]
    rw [hmod]
    simp [List.append_assoc]
  rw [habytes, tryFrom_characterization]
  have t0 : (beBytes data.length ++ (ct.bytes ++ (data ++ beBytes (crc32 (ct.bytes ++ data))))).take 4
      = beBytes data.length := by
    have := List.take_left (beBytes data.length)
      (ct.bytes ++ (data ++ beBytes (crc32 (ct.bytes ++ data))))
    rwa [beBytes_length] at this
  have d4 : (beBytes data.length ++ (ct.bytes ++ (data ++ beBytes (crc32 (ct.bytes ++ data))))).drop 4
      = ct.bytes ++ (data ++ beBytes (crc32 (ct.bytes ++ data))) := by
    have := List.drop_left (beBytes data.length)
      (ct.bytes ++ (data ++ beBytes (crc32 (ct.bytes ++ data))))
    rwa [beBytes_length] at this
  have t4 : (ct.bytes ++ (data ++ beBytes (crc32 (ct.bytes ++ data)))).take 4 = ct.bytes := by
    have := List.take_left ct.bytes (data ++ beBytes (crc32 (ct.bytes ++ data)))
    rwa [ChunkType.bytes_length] at this
  have d8 : (ct.bytes ++ (data ++ beBytes (crc32 (ct.bytes ++ data)))).drop 4
      = data ++ beBytes (crc32 (ct.bytes ++ data)) := by
    have := List.drop_left ct.bytes (data ++ beBytes (crc32 (ct.bytes ++ data)))
    rwa [ChunkType.bytes_length] at this
  rw [t0, u32beL_beBytes hlen]
  have hlen_all : (beBytes data.length ++ (ct.bytes ++ (data ++ beBytes (crc32 (ct.bytes ++ data))))).length
      = 12 + data.length := by
    simp [List.length_append, beBytes_length, ChunkType.bytes_length]
    omega
  rw [if_pos (by rw [hlen_all])]
  have step8 : (beBytes data.length ++ (ct.bytes ++ (data ++ beBytes (crc32 (ct.bytes ++ data))))).drop 8
      = data ++ beBytes (crc32 (ct.bytes ++ data)) := by
    have : (8:Nat) = 4 + 4 := by norm_num
    rw [this, ← List.drop_drop, d4, d8]
  have t8 : (data ++ beBytes (crc32 (ct.bytes ++ data))).take data.length = data :=
    List.take_left data (beBytes (crc32 (ct.bytes ++ data)))
  have step12 : (beBytes data.length ++ (ct.bytes ++ (data ++ beBytes (crc32 (ct.bytes ++ data))))).drop
      (8 + data.length) = beBytes (crc32 (ct.bytes ++ data)) := by
    rw [← List.drop_drop, step8]
    have := List.drop_left data (beBytes (crc32 (ct.bytes ++ data)))
    exact this
  rw [d4, t4, ChunkType.ofList_bytes, step8, t8, step12]
  have tfin : (beBytes (crc32 (ct.bytes ++ data))).take 4 = beBytes (crc32 (ct.bytes ++ data)) := by
    rw [← beBytes_length (crc32 (ct.bytes ++ data))]
    exact List.take_length _
  rw [tfin, u32beL_beBytes hcrclt]
  rw [if_pos rfl]
  simp only [Chunk.new, Except.ok.injEq, Chunk.mk.injEq]
  simp only [true_and, and_true]
  have e : (2:Nat) ^ 32 = 4294967296 := by norm_num
  rw [e] at hlen
  omega

/-! ### Concrete test vectors (from the repository's test suite) -/

/-- The bytes of the chunk-type string `"RuSt"`. -/
def rustTypeBytes : List Nat := [82, 117, 83, 116]

/-- The UTF-8 bytes of `"This is where your secret message will be!"`. -/
def secretMessage : List Nat :=
  [84, 104, 105, 115, 32, 105, 115, 32, 119, 104, 101, 114, 101, 32, 121,
   111, 117, 114, 32, 115, 101, 99, 114, 101, 116, 32, 109, 101, 115, 115,
   97, 103, 101, 32, 119, 105, 108, 108, 32, 98, 101, 33]

/-! ### Claims -/

/-- C2: chunk decoding reads, in order, a 4-byte big-endian length, a 4-byte
type, `length` payload bytes and a 4-byte big-endian CRC; it fails with a
CRC-mismatch error whenever the CRC-32 (ISO-HDLC) recomputed over
type ++ payload differs from the stored CRC, and fails with a truncation
error whenever the slice is shorter than `12 + length` bytes. -/
theorem C2_decode_framing (bytes : List Nat) :
    Chunk.tryFrom bytes =
      if 12 + u32beL (bytes.take 4) ≤ bytes.length then
        if u32beL ((bytes.drop (8 + u32beL (bytes.take 4))).take 4)
            = crc32 ((ChunkType.ofList ((bytes.drop 4).take 4)).bytes
                ++ (bytes.drop 8).take (u32beL (bytes.take 4))) then
          .ok { length := u32beL (bytes.take 4)
                ctype := ChunkType.ofList ((bytes.drop 4).take 4)
                data := (bytes.drop 8).take (u32beL (bytes.take 4))
                crc := u32beL ((bytes.drop (8 + u32beL (bytes.take 4))).take 4) }
        else .error .crcMismatch
      else .error .truncated :=
  tryFrom_characterization bytes

/-- C5: `ChunkType` construction from a string succeeds exactly when the
input is 4 bytes long and every byte is an ASCII letter, and yields the
type made of those bytes; otherwise it fails. -/
theorem C5_fromStr_validation (s : List Nat) :
    ChunkType.fromStr s =
      if s.length = 4 ∧ s.all ChunkType.possibleByte then
        some (ChunkType.ofList s)
      else none := by
  rcases s with _ | ⟨a, _ | ⟨b, _ | ⟨c, _ | ⟨d, _ | ⟨e, t⟩⟩⟩⟩⟩ <;>
    simp [ChunkType.fromStr, ChunkType.is_only_possible_bytes,
      ChunkType.bytes, ChunkType.ofList, List.all_cons]

/-- C6: for every legal 4-letter string (4 bytes, each an ASCII letter),
constructing a `ChunkType` from it and rendering it back returns the
original bytes exactly. -/
theorem C6_fromStr_render_roundtrip (s : List Nat) (hlen : s.length = 4)
    (hletters : ∀ b ∈ s, ChunkType.possibleByte b) :
    Option.map ChunkType.render (ChunkType.fromStr s) = some s := by
  obtain ⟨a, b, c, d, rfl⟩ := exists_four hlen
  have hall : ChunkType.is_only_possible_bytes ⟨a, b, c, d⟩ = true := by
    simp only [ChunkType.is_only_possible_bytes, ChunkType.bytes, List.all_cons,
      List.all_nil, Bool.and_true, Bool.and_eq_true]
    exact ⟨hletters a (by simp), hletters b (by simp), hletters c (by simp),
      hletters d (by simp)⟩
  simp [ChunkType.fromStr, hall, ChunkType.render, ChunkType.bytes]

/-- C6 witness: the concrete legal string `"RuSt"` round-trips. -/
theorem C6_fromStr_render_roundtrip_witness :
    Option.map ChunkType.render (ChunkType.fromStr rustTypeBytes)
      = some rustTypeBytes :=
  C6_fromStr_render_roundtrip rustTypeBytes (by decide) (by decide)

/-- C7: `is_critical` / `is_public` / `is_reserved_bit_valid` are true iff
bytes 0 / 1 / 2 are uppercase ASCII letters and `is_safe_to_copy` iff byte 3
is lowercase; concretely, the letters-only-valid type `"Rust"` has an invalid
reserved bit while `"RuSt"` has a valid one. -/
theorem C7_semantic_bits :
    (∀ ct : ChunkType,
      (ct.is_critical = true ↔ 65 ≤ ct.b0 ∧ ct.b0 ≤ 90) ∧
      (ct.is_public = true ↔ 65 ≤ ct.b1 ∧ ct.b1 ≤ 90) ∧
      (ct.is_reserved_bit_valid = true ↔ 65 ≤ ct.b2 ∧ ct.b2 ≤ 90) ∧
      (ct.is_safe_to_copy = true ↔ 97 ≤ ct.b3 ∧ ct.b3 ≤ 122)) ∧
    Option.map ChunkType.is_reserved_bit_valid
      (ChunkType.fromStr [82, 117, 115, 116]) = some false ∧
    Option.map ChunkType.is_reserved_bit_valid
      (ChunkType.fromStr [82, 117, 83, 116]) = some true := by
  refine ⟨fun ct => ?_, by decide, by decide⟩
  refine ⟨?_, ?_, ?_, ?_⟩ <;>
    simp [ChunkType.is_critical, ChunkType.is_public,
      ChunkType.is_reserved_bit_valid, ChunkType.is_safe_to_copy,
      ChunkType.asciiUpper, ChunkType.asciiLower]

/-- C8: `ChunkType` construction from 4 raw bytes always succeeds, with no
legality check: the resulting type holds exactly the given bytes. -/
theorem C8_tryFromBytes_total (b0 b1 b2 b3 : Nat) :
    ChunkType.tryFromBytes b0 b1 b2 b3 = .ok (ChunkType.new b0 b1 b2 b3) :=
  rfl

/-- C10: chunk decoding ignores any bytes after the first `12 + length`: a
slice that decodes successfully still decodes to the same chunk after any
suffix of extra bytes is appended. -/
theorem C10_decode_ignores_suffix (bytes extra : List Nat) (c : Chunk)
    (h : Chunk.tryFrom bytes = .ok c) :
    Chunk.tryFrom (bytes ++ extra) = .ok c :=
  tryFrom_ok_append h

/-- C10 witness: a concrete 12-byte empty-payload `"RuSt"` chunk decodes to
the same chunk after appending a stray byte. -/
theorem C10_decode_ignores_suffix_witness :
    Chunk.tryFrom ((beBytes 0 ++ rustTypeBytes ++ beBytes 3565422908) ++ [7])
      = .ok { length := 0, ctype := ChunkType.new 82 117 83 116,
              data := [], crc := 3565422908 } :=
  C10_decode_ignores_suffix _ [7] _ (by decide)

/-- C1 (amended): for every `ChunkType` (of bytes) and every payload byte
buffer of fewer than `2 ^ 32` bytes, decoding the encoding of the chunk
constructed from them succeeds and yields the chunk itself, field for
field. -/
theorem C1_roundtrip_amended (ct : ChunkType) (data : List Nat)
    (hct : ∀ b ∈ ct.bytes, b < 256) (hdata : ∀ b ∈ data, b < 256)
    (hlen : data.length < 2 ^ 32) :
    Chunk.tryFrom (Chunk.new ct data).as_bytes = .ok (Chunk.new ct data) :=
  tryFrom_new hct hdata hlen

/-- C1 witness: the concrete chunk `("RuSt", [1, 2, 3])` round-trips. -/
theorem C1_roundtrip_witness :
    Chunk.tryFrom (Chunk.new (ChunkType.new 82 117 83 116) [1, 2, 3]).as_bytes
      = .ok (Chunk.new (ChunkType.new 82 117 83 116) [1, 2, 3]) :=
  C1_roundtrip_amended _ _ (by decide) (by decide) (by decide)

/-- For any payload of exactly `2 ^ 32` bytes, the `as u32` cast truncates
the stored length field to 0, and the decoder can no longer return the
original chunk. -/
theorem no_roundtrip_of_length_two_pow (ct : ChunkType) (data : List Nat)
    (hdlen : data.length = 2 ^ 32) :
    Chunk.tryFrom (Chunk.new ct data).as_bytes ≠ .ok (Chunk.new ct data) := by
  intro h
  have hlen0 : data.length % 2 ^ 32 = 0 := by rw [hdlen]; exact Nat.mod_self _
  have habytes : (Chunk.new ct data).as_bytes
      = beBytes 0 ++ (ct.bytes ++ (data ++ beBytes (crc32 (ct.bytes ++ data)))) := by
    simp only [Chunk.new, Chunk.as_bytes]
    rw [hlen0]
    simp only [List.append_assoc]
  rw [habytes, tryFrom_characterization] at h
  rw [show ((beBytes 0 ++ (ct.bytes ++ (data ++ beBytes (crc32 (ct.bytes ++ data))))).take 4)
        = beBytes 0 from by
    have := List.take_left (beBytes 0)
      (ct.bytes ++ (data ++ beBytes (crc32 (ct.bytes ++ data))))
    rwa [beBytes_length] at this] at h
  rw [u32beL_beBytes (by norm_num)] at h
  rw [if_pos (by
    simp only [List.length_append, beBytes_length, ChunkType.bytes_length]
    omega)] at h
  by_cases hc : u32beL (((beBytes 0 ++ (ct.bytes ++ (data
        ++ beBytes (crc32 (ct.bytes ++ data))))).drop (8 + 0)).take 4)
      = crc32 ((ChunkType.ofList (((beBytes 0 ++ (ct.bytes ++ (data
          ++ beBytes (crc32 (ct.bytes ++ data))))).drop 4).take 4)).bytes
          ++ ((beBytes 0 ++ (ct.bytes ++ (data
              ++ beBytes (crc32 (ct.bytes ++ data))))).drop 8).take 0)
  · rw [if_pos hc] at h
    simp only [Except.ok.injEq] at h
    have hdatafield := congrArg Chunk.data h
    simp only [List.take_zero, Chunk.new] at hdatafield
    have hzero := congrArg List.length hdatafield
    simp only [List.length_nil] at hzero
    rw [hdlen] at hzero
    exact absurd hzero.symm (by norm_num)
  · rw [if_neg hc] at h
    exact absurd h (by simp)

/-- C1 counterexample: for the payload of exactly `2 ^ 32` zero bytes the
length field is truncated by `as u32` to 0, and decoding the encoding no
longer returns the original chunk, so the claim fails for arbitrary
payload buffers. -/
theorem C1_roundtrip_counterexample :
    Chunk.tryFrom (Chunk.new (ChunkType.new 82 117 83 116)
        (List.replicate (2 ^ 32) 0)).as_bytes
      ≠ .ok (Chunk.new (ChunkType.new 82 117 83 116) (List.replicate (2 ^ 32) 0)) :=
  no_roundtrip_of_length_two_pow _ _ (List.length_replicate _ _)

set_option maxRecDepth 100000 in
/-- C3 (amended): for the concrete chunk with type `"RuSt"` and the 42-byte
payload `"This is where your secret message will be!"`, the CRC-32
(ISO-HDLC) over type ++ payload equals 2882656334, decoding the assembled
`12 + 42`-byte slice succeeds with matching rendered type and payload bytes,
and decoding the same bytes with the CRC field set to 2882656333 fails with
a CRC-mismatch error. -/
theorem C3_concrete_chunk_amended :
    crc32 (rustTypeBytes ++ secretMessage) = 2882656334 ∧
    secretMessage.length = 42 ∧
    Chunk.tryFrom (beBytes 42 ++ rustTypeBytes ++ secretMessage ++ beBytes 2882656334)
      = .ok { length := 42, ctype := ChunkType.new 82 117 83 116,
              data := secretMessage, crc := 2882656334 } ∧
    (ChunkType.new 82 117 83 116).render = rustTypeBytes ∧
    Chunk.tryFrom (beBytes 42 ++ rustTypeBytes ++ secretMessage ++ beBytes 2882656333)
      = .error .crcMismatch := by
  refine ⟨by decide, by decide, by decide, by decide, by decide⟩

/-- C3 counterexample: the payload `"This is where your secret message will
be!"` is 42 bytes long, not 44 as the claim states, so there is no assembled
`12 + 44`-byte slice for this chunk. -/
theorem C3_concrete_chunk_counterexample : secretMessage.length ≠ 44 := by
  decide

/-! ### PNG container parsing lemmas -/

/-- A successful decode of a byte buffer consumed exactly the first
`12 + length` bytes, and re-encoding the decoded chunk reproduces them. -/
theorem tryFrom_ok_take {bytes : List Nat} {c : Chunk}
    (hbytes : ∀ x ∈ bytes, x < 256) (h : Chunk.tryFrom bytes = .ok c) :
    c.as_bytes = bytes.take (12 + c.length) ∧ 12 + c.length ≤ bytes.length := by
  rw [tryFrom_characterization] at h
  by_cases hmain : 12 + u32beL (bytes.take 4) ≤ bytes.length
  case neg =>
    rw [if_neg hmain] at h
    exact absurd h (by simp)
  rw [if_pos hmain] at h
  by_cases hc : u32beL ((bytes.drop (8 + u32beL (bytes.take 4))).take 4)
      = crc32 ((ChunkType.ofList ((bytes.drop 4).take 4)).bytes
          ++ (bytes.drop 8).take (u32beL (bytes.take 4)))
  case neg =>
    rw [if_neg hc] at h
    exact absurd h (by simp)
  rw [if_pos hc] at h
  simp only [Except.ok.injEq] at h
  subst h
  have hlen4 : (bytes.take 4).length = 4 := by
    rw [List.length_take]
    omega
  have htb4 : ((bytes.drop 4).take 4).length = 4 := by
    rw [List.length_take, List.length_drop]
    omega
  have hcb4 : ((bytes.drop (8 + u32beL (bytes.take 4))).take 4).length = 4 := by
    rw [List.length_take, List.length_drop]
    omega
  have hd : ((bytes.drop 8).take (u32beL (bytes.take 4))).length
      = u32beL (bytes.take 4) := by
    rw [List.length_take, List.length_drop]
    omega
  refine ⟨?_, by simpa using hmain⟩
  simp only [Chunk.as_bytes]
  obtain ⟨a, b, c, d, he⟩ := exists_four hlen4
  have hmem : ∀ x ∈ bytes.take 4, x < 256 :=
    fun x hx => hbytes x (List.mem_of_mem_take hx)
  rw [he] at hmem
  have hbe : beBytes (u32beL (bytes.take 4)) = bytes.take 4 := by
    rw [he]
    exact beBytes_u32beL (hmem a (by simp)) (hmem b (by simp))
      (hmem c (by simp)) (hmem d (by simp))
  obtain ⟨a2, b2, c2, d2, he2⟩ := exists_four hcb4
  have hmem2 : ∀ x ∈ (bytes.drop (8 + u32beL (bytes.take 4))).take 4, x < 256 :=
    fun x hx => hbytes x (List.mem_of_mem_drop (List.mem_of_mem_take hx))
  rw [he2] at hmem2
  have hbe2 : beBytes (u32beL ((bytes.drop (8 + u32beL (bytes.take 4))).take 4))
      = (bytes.drop (8 + u32beL (bytes.take 4))).take 4 := by
    rw [he2]
    exact beBytes_u32beL (hmem2 a2 (by simp)) (hmem2 b2 (by simp))
      (hmem2 c2 (by simp)) (hmem2 d2 (by simp))
  rw [hbe, ChunkType.bytes_ofList htb4, hbe2]
  have hsplit : 12 + u32beL (bytes.take 4)
      = 4 + (4 + (u32beL (bytes.take 4) + 4)) := by omega
  rw [hsplit, List.take_add, List.take_add, List.take_add]
  simp only [List.drop_drop, List.append_assoc, Nat.reduceAdd]

/-- Evaluation rule for the empty buffer. -/
theorem parseChunks_nil : parseChunks [] = .ok [] := by
  unfold parseChunks
  rw [dif_pos rfl]

/-- Modelled from the spec: re-encoding the chunks that `parseChunks`
produced reproduces the parsed bytes exactly. (Strong induction on the
buffer length, one chunk record at a time.) -/
theorem parseChunks_encode : ∀ (n : Nat) (bytes : List Nat) (cs : List Chunk),
    bytes.length ≤ n → (∀ x ∈ bytes, x < 256) → parseChunks bytes = .ok cs →
    (cs.map Chunk.as_bytes).flatten = bytes := by
  intro n
  induction n with
  | zero =>
    intro bytes cs hlen hbytes h
    have hb : bytes = [] := List.eq_nil_of_length_eq_zero (by omega)
    subst hb
    rw [parseChunks_nil] at h
    simp only [Except.ok.injEq] at h
    subst h
    rfl
  | succ n ih =>
    intro bytes cs hlen hbytes h
    by_cases hb : bytes = []
    · subst hb
      rw [parseChunks_nil] at h
      simp only [Except.ok.injEq] at h
      subst h
      rfl
    · unfold parseChunks at h
      rw [dif_neg hb] at h
      cases htf : Chunk.tryFrom bytes with
      | error e =>
        rw [htf] at h
        exact absurd h (by simp)
      | ok c =>
        rw [htf] at h
        dsimp only at h
        cases hrec : parseChunks (bytes.drop (12 + c.length)) with
        | error e =>
          rw [hrec] at h
          exact absurd h (by simp)
        | ok cs2 =>
          rw [hrec] at h
          simp only [Except.ok.injEq] at h
          subst h
          obtain ⟨henc, hle⟩ := tryFrom_ok_take hbytes htf
          have hpos : 0 < bytes.length := List.length_pos.mpr hb
          have hdroplen : (bytes.drop (12 + c.length)).length ≤ n := by
            rw [List.length_drop]
            omega
          have hdropbytes : ∀ x ∈ bytes.drop (12 + c.length), x < 256 :=
            fun x hx => hbytes x (List.mem_of_mem_drop hx)
          have hrest := ih _ _ hdroplen hdropbytes hrec
          rw [List.map_cons, List.flatten_cons, hrest, henc]
          exact List.take_append_drop _ _

/-- C9: for every byte buffer that parses successfully as a PNG container
(canonical signature followed by well-formed chunk records), re-encoding
the container without mutation reproduces the input bytes exactly. -/
theorem C9_parse_encode_roundtrip (bytes : List Nat) (p : Png)
    (hbytes : ∀ x ∈ bytes, x < 256) (h : Png.tryFrom bytes = .ok p) :
    p.as_bytes = bytes := by
  unfold Png.tryFrom at h
  by_cases hsig : bytes.take 8 = pngSignature
  · rw [if_pos hsig] at h
    cases hpc : parseChunks (bytes.drop 8) with
    | error e =>
      rw [hpc] at h
      exact absurd h (by simp)
    | ok cs =>
      rw [hpc] at h
      simp only [Except.ok.injEq] at h
      subst h
      unfold Png.as_bytes
      have henc := parseChunks_encode (bytes.drop 8).length _ _ le_rfl
        (fun x hx => hbytes x (List.mem_of_mem_drop hx)) hpc
      rw [henc, ← hsig]
      exact List.take_append_drop _ _
  · rw [if_neg hsig] at h
    exact absurd h (by simp)

/-- C9 witness: a concrete PNG buffer holding one empty `"RuSt"` chunk
parses and re-encodes to itself. -/
theorem C9_parse_encode_roundtrip_witness :
    Png.as_bytes ⟨[{ length := 0, ctype := ChunkType.new 82 117 83 116,
                     data := [], crc := 3565422908 }]⟩
      = pngSignature ++ (beBytes 0 ++ rustTypeBytes ++ beBytes 3565422908) := by
  apply C9_parse_encode_roundtrip _ _ (by decide)
  unfold Png.tryFrom
  rw [if_pos (by decide)]
  rw [show (pngSignature ++ (beBytes 0 ++ rustTypeBytes ++ beBytes 3565422908)).drop 8
      = beBytes 0 ++ rustTypeBytes ++ beBytes 3565422908 from by decide]
  have hpc : parseChunks (beBytes 0 ++ rustTypeBytes ++ beBytes 3565422908)
      = .ok [{ length := 0, ctype := ChunkType.new 82 117 83 116,
               data := [], crc := 3565422908 }] := by
    unfold parseChunks
    rw [dif_neg (by decide)]
    rw [show Chunk.tryFrom (beBytes 0 ++ rustTypeBytes ++ beBytes 3565422908)
        = .ok { length := 0, ctype := ChunkType.new 82 117 83 116,
                data := [], crc := 3565422908 } from by decide]
    dsimp only
    rw [show (beBytes 0 ++ rustTypeBytes ++ beBytes 3565422908).drop
        (12 + ({ length := 0, ctype := ChunkType.new 82 117 83 116,
                 data := [], crc := 3565422908 } : Chunk).length)
        = ([] : List Nat) from by decide]
    rw [parseChunks_nil]
  rw [hpc]


/-! ### Single-byte tamper sensitivity -/

/-- Changing one byte of a 4-byte big-endian field changes its value. -/
theorem u32beL_set_ne {l : List Nat} (hlen : l.length = 4)
    (hl : ∀ x ∈ l, x < 256) {k x : Nat} (hk : k < 4) (hx : x < 256)
    (hne : x ≠ l.getD k 0) : u32beL (l.set k x) ≠ u32beL l := by
  obtain ⟨a, b, c, d, rfl⟩ := exists_four hlen
  have ha : a < 256 := hl a (by simp)
  have hb : b < 256 := hl b (by simp)
  have hc : c < 256 := hl c (by simp)
  have hd : d < 256 := hl d (by simp)
  intro heq
  interval_cases k <;>
    (simp only [List.set_cons_zero, List.set_cons_succ, List.getD_cons_zero,
      List.getD_cons_succ, u32beL_four] at heq hne; omega)

/-- A list is its own `take` by its full length. -/
theorem take_all_of_length {l : List Nat} {n : Nat} (h : l.length = n) :
    l.take n = l := by
  rw [← h]
  exact List.take_length l

/-- C4 (amended): for a chunk constructed from a payload of fewer than
`2 ^ 32` bytes, mutating a single byte at any position `i` with
`4 ≤ i < 12 + payload length` of its encoding (i.e. in the type, payload
or CRC field, but not the length field) makes decoding fail with a
CRC-mismatch error. The payload bound is required: a `2 ^ 32`-byte payload
truncates the length field to 0, and a type-byte mutation can then decode
successfully when the first payload bytes happen to match the recomputed
CRC. -/
theorem C4_tamper_mismatch_amended (ct : ChunkType) (data : List Nat)
    (hct : ∀ b ∈ ct.bytes, b < 256) (hdata : ∀ b ∈ data, b < 256)
    (hlen : data.length < 2 ^ 32) (i b' : Nat) (hb' : b' < 256)
    (hi4 : 4 ≤ i) (hitop : i < 12 + data.length)
    (hne : b' ≠ (Chunk.new ct data).as_bytes.getD i 0) :
    Chunk.tryFrom ((Chunk.new ct data).as_bytes.set i b') = .error .crcMismatch := by
  have hmod : data.length % 2 ^ 32 = data.length := Nat.mod_eq_of_lt hlen
  have hMbytes : ∀ x ∈ ct.bytes ++ data, x < 256 := by
    intro x hx
    rcases List.mem_append.mp hx with hx | hx
    · exact hct x hx
    · exact hdata x hx
  have hcrclt : crc32 (ct.bytes ++ data) < 2 ^ 32 := crc32_lt hMbytes
  have hMlen : (ct.bytes ++ data).length = 4 + data.length := by
    rw [List.length_append, ChunkType.bytes_length]
  have habytes : (Chunk.new ct data).as_bytes
      = beBytes data.length
          ++ ((ct.bytes ++ data) ++ beBytes (crc32 (ct.bytes ++ data))) := by
    simp only [Chunk.new, Chunk.as_bytes]
    rw [hmod]
    simp only [List.append_assoc]
  rw [habytes] at hne ⊢
  rw [List.set_append, beBytes_length, if_neg (by omega)]
  rw [tryFrom_characterization]
  have hmrlen : ((((ct.bytes ++ data)
      ++ beBytes (crc32 (ct.bytes ++ data))).set (i - 4) b')).length
      = 8 + data.length := by
    rw [List.length_set, List.length_append, hMlen, beBytes_length]
    omega
  have ptake : (beBytes data.length ++ (((ct.bytes ++ data)
      ++ beBytes (crc32 (ct.bytes ++ data))).set (i - 4) b')).take 4
      = beBytes data.length := by
    have := List.take_left (beBytes data.length)
      (((ct.bytes ++ data) ++ beBytes (crc32 (ct.bytes ++ data))).set (i - 4) b')
    rwa [beBytes_length] at this
  have pdrop4 : (beBytes data.length ++ (((ct.bytes ++ data)
      ++ beBytes (crc32 (ct.bytes ++ data))).set (i - 4) b')).drop 4
      = ((ct.bytes ++ data) ++ beBytes (crc32 (ct.bytes ++ data))).set (i - 4) b' := by
    have := List.drop_left (beBytes data.length)
      (((ct.bytes ++ data) ++ beBytes (crc32 (ct.bytes ++ data))).set (i - 4) b')
    rwa [beBytes_length] at this
  have pdrop8 : (beBytes data.length ++ (((ct.bytes ++ data)
      ++ beBytes (crc32 (ct.bytes ++ data))).set (i - 4) b')).drop 8
      = (((ct.bytes ++ data) ++ beBytes (crc32 (ct.bytes ++ data))).set (i - 4) b').drop 4 := by
    rw [show (8:Nat) = 4 + 4 from rfl, ← List.drop_drop, pdrop4]
  have pdrop8L : (beBytes data.length ++ (((ct.bytes ++ data)
      ++ beBytes (crc32 (ct.bytes ++ data))).set (i - 4) b')).drop (8 + data.length)
      = (((ct.bytes ++ data) ++ beBytes (crc32 (ct.bytes ++ data))).set (i - 4) b').drop
          (4 + data.length) := by
    rw [show 8 + data.length = 4 + (4 + data.length) from by omega, ← List.drop_drop, pdrop4]
  rw [ptake, u32beL_beBytes hlen, pdrop4, pdrop8, pdrop8L]
  rw [if_pos (by
    rw [List.length_append, beBytes_length, hmrlen]
    omega)]
  by_cases hcase : i - 4 < 4 + data.length
  · -- the mutation hits the type or payload bytes
    rw [show ((ct.bytes ++ data) ++ beBytes (crc32 (ct.bytes ++ data))).set (i - 4) b'
        = ((ct.bytes ++ data).set (i - 4) b') ++ beBytes (crc32 (ct.bytes ++ data)) from by
      rw [List.set_append, if_pos (by omega)]]
    have hsetlen : ((ct.bytes ++ data).set (i - 4) b').length = 4 + data.length := by
      rw [List.length_set, hMlen]
    have q1 : (((ct.bytes ++ data).set (i - 4) b')
        ++ beBytes (crc32 (ct.bytes ++ data))).take 4
        = ((ct.bytes ++ data).set (i - 4) b').take 4 :=
      List.take_append_of_le_length (by omega)
    have q2 : ((((ct.bytes ++ data).set (i - 4) b')
        ++ beBytes (crc32 (ct.bytes ++ data))).drop 4).take data.length
        = (((ct.bytes ++ data).set (i - 4) b').drop 4).take data.length := by
      rw [List.drop_append_of_le_length (by omega)]
      exact List.take_append_of_le_length (by rw [List.length_drop, hsetlen]; omega)
    have q3 : (((ct.bytes ++ data).set (i - 4) b')
        ++ beBytes (crc32 (ct.bytes ++ data))).drop (4 + data.length)
        = beBytes (crc32 (ct.bytes ++ data)) := by
      rw [← hsetlen]
      exact List.drop_left _ _
    rw [q1, q2, q3]
    rw [show (beBytes (crc32 (ct.bytes ++ data))).take 4
        = beBytes (crc32 (ct.bytes ++ data)) from by
      rw [← beBytes_length (crc32 (ct.bytes ++ data))]
      exact List.take_length _]
    rw [u32beL_beBytes hcrclt]
    rw [ChunkType.bytes_ofList (by
      rw [List.length_take, hsetlen]
      omega)]
    rw [← List.take_add]
    rw [show ((ct.bytes ++ data).set (i - 4) b').take (4 + data.length)
        = (ct.bytes ++ data).set (i - 4) b' from by
      rw [← hsetlen]
      exact List.take_length _]
    have horig : (beBytes data.length ++ ((ct.bytes ++ data)
        ++ beBytes (crc32 (ct.bytes ++ data)))).getD i 0
        = (ct.bytes ++ data).getD (i - 4) 0 := by
      rw [List.getD_append_right _ _ _ _ (by rw [beBytes_length]; omega)]
      rw [beBytes_length]
      exact List.getD_append _ _ _ _ (by omega)
    rw [horig] at hne
    have hj : i - 4 < (ct.bytes ++ data).length := by omega
    rw [List.getD_eq_getElem _ _ hj] at hne
    rw [if_neg ?_]
    have hsetdec : (ct.bytes ++ data).set (i - 4) b'
        = (ct.bytes ++ data).take (i - 4) ++ b' :: (ct.bytes ++ data).drop (i - 4 + 1) := by
      rw [List.set_eq_take_append_cons_drop, if_pos hj]
    have hMdec : (ct.bytes ++ data).take (i - 4)
        ++ (ct.bytes ++ data)[i - 4] :: (ct.bytes ++ data).drop (i - 4 + 1)
        = ct.bytes ++ data := by
      rw [List.getElem_cons_drop]
      exact List.take_append_drop _ _
    intro heq
    have hdiff := @crc32_single_diff
      ((ct.bytes ++ data).take (i - 4))
      ((ct.bytes ++ data).drop (i - 4 + 1))
      ((ct.bytes ++ data).get ⟨i - 4, hj⟩) b'
      (fun x hx => hMbytes x (List.mem_of_mem_take hx))
      (fun x hx => hMbytes x (List.mem_of_mem_drop hx))
      (hMbytes _ (List.getElem_mem hj)) hb' (Ne.symm hne)
    rw [List.get_eq_getElem, hMdec, ← hsetdec] at hdiff
    exact hdiff heq
  · -- the mutation hits the stored CRC bytes
    rw [show ((ct.bytes ++ data) ++ beBytes (crc32 (ct.bytes ++ data))).set (i - 4) b'
        = (ct.bytes ++ data) ++ (beBytes (crc32 (ct.bytes ++ data))).set
            (i - 4 - (4 + data.length)) b' from by
      rw [List.set_append, if_neg (by omega), hMlen]]
    have hsetlen2 : ((beBytes (crc32 (ct.bytes ++ data))).set
        (i - 4 - (4 + data.length)) b').length = 4 := by
      rw [List.length_set, beBytes_length]
    have q1 : ((ct.bytes ++ data) ++ (beBytes (crc32 (ct.bytes ++ data))).set
        (i - 4 - (4 + data.length)) b').take 4
        = (ct.bytes ++ data).take 4 :=
      List.take_append_of_le_length (by omega)
    have q2 : (((ct.bytes ++ data) ++ (beBytes (crc32 (ct.bytes ++ data))).set
        (i - 4 - (4 + data.length)) b').drop 4).take data.length
        = ((ct.bytes ++ data).drop 4).take data.length := by
      rw [List.drop_append_of_le_length (by omega)]
      exact List.take_append_of_le_length (by rw [List.length_drop, hMlen]; omega)
    have q3 : ((ct.bytes ++ data) ++ (beBytes (crc32 (ct.bytes ++ data))).set
        (i - 4 - (4 + data.length)) b').drop (4 + data.length)
        = (beBytes (crc32 (ct.bytes ++ data))).set (i - 4 - (4 + data.length)) b' := by
      rw [← hMlen]
      exact List.drop_left _ _
    rw [q1, q2, q3]
    rw [show ((beBytes (crc32 (ct.bytes ++ data))).set
        (i - 4 - (4 + data.length)) b').take 4
        = (beBytes (crc32 (ct.bytes ++ data))).set (i - 4 - (4 + data.length)) b' from
      take_all_of_length hsetlen2]
    rw [ChunkType.bytes_ofList (by
      rw [List.length_take, hMlen]
      omega)]
    rw [← List.take_add]
    rw [show (ct.bytes ++ data).take (4 + data.length) = ct.bytes ++ data from by
      rw [← hMlen]
      exact List.take_length _]
    have horig : (beBytes data.length ++ ((ct.bytes ++ data)
        ++ beBytes (crc32 (ct.bytes ++ data)))).getD i 0
        = (beBytes (crc32 (ct.bytes ++ data))).getD (i - 4 - (4 + data.length)) 0 := by
      rw [List.getD_append_right _ _ _ _ (by rw [beBytes_length]; omega)]
      rw [beBytes_length]
      rw [List.getD_append_right _ _ _ _ (by rw [hMlen]; omega)]
      rw [hMlen]
    rw [horig] at hne
    rw [if_neg ?_]
    intro heq
    have hcontra := @u32beL_set_ne (beBytes (crc32 (ct.bytes ++ data)))
      (beBytes_length (crc32 (ct.bytes ++ data)))
      (fun x hx => beBytes_mem_lt hx)
      (i - 4 - (4 + data.length)) b' (by omega) hb' hne
    rw [u32beL_beBytes hcrclt] at hcontra
    exact hcontra heq


/-- C4 witness: flipping byte 5 (a type byte) of the encoded chunk
`("RuSt", [1, 2, 3])` to 0 yields a CRC-mismatch failure. -/
theorem C4_tamper_mismatch_witness :
    Chunk.tryFrom ((Chunk.new (ChunkType.new 82 117 83 116) [1, 2, 3]).as_bytes.set 5 0)
      = .error .crcMismatch :=
  C4_tamper_mismatch_amended _ _ (by decide) (by decide) (by decide) 5 0
    (by decide) (by decide) (by decide) (by decide)

set_option maxRecDepth 100000 in
/-- C4 counterexample: for the chunk whose payload is the big-endian CRC of
its own type bytes, mutating length byte 3 from 4 to 0 makes decoding
succeed (yielding a shorter chunk) instead of failing with a CRC mismatch,
so the claim is false for length-field positions. -/
theorem C4_tamper_mismatch_counterexample :
    (Chunk.new (ChunkType.new 82 117 83 116) (beBytes 3565422908)).as_bytes.getD 3 0 ≠ 0 ∧
    Chunk.tryFrom ((Chunk.new (ChunkType.new 82 117 83 116)
        (beBytes 3565422908)).as_bytes.set 3 0)
      = .ok { length := 0, ctype := ChunkType.new 82 117 83 116,
              data := [], crc := 3565422908 } :=
  ⟨by decide, by decide⟩

end Spell
